import Mathlib

/-
  Verification development for the stemtool repository
  (src/stemtools/nbed/nbed_strain.py and src/stemtools/eels/eels_tools.py).

  The numeric code is shallowly embedded over the rational numbers.
  External collaborator functions that live outside the repository
  (scipy rotate and minimize, the Sobel edge operator, the image
  logarizer, the cross correlator, the 2D Gaussian peak fitter and the
  pywt wavelet routines) are modelled as function parameters, since the
  repository consumes them as black boxes.  Floating point square root
  and the float constant pi are likewise modelled as parameters, because
  they only ever feed the abstract peak fitter.  np.linalg.lstsq is
  embedded through the normal equations, which agree with it on every
  full rank system; the development proves that this solution minimises
  the squared residual, which is the property the specification claims.
-/

namespace Stemtool

/-- 2x2 rational matrix, row major: entries a b on the first row and c d
on the second row. -/
structure Mat2 where
  a : ℚ
  b : ℚ
  c : ℚ
  d : ℚ
deriving DecidableEq

/-- Identity matrix, np.eye(2). -/
def Mat2.one : Mat2 := ⟨1, 0, 0, 1⟩

/-- Matrix product, np.matmul for 2x2 operands. -/
def Mat2.mul (X Y : Mat2) : Mat2 :=
  ⟨X.a * Y.a + X.b * Y.c, X.a * Y.b + X.b * Y.d,
   X.c * Y.a + X.d * Y.c, X.c * Y.b + X.d * Y.d⟩

/-- Matrix difference. -/
def Mat2.sub (X Y : Mat2) : Mat2 :=
  ⟨X.a - Y.a, X.b - Y.b, X.c - Y.c, X.d - Y.d⟩

/-- Determinant of a 2x2 matrix. -/
def Mat2.det (X : Mat2) : ℚ := X.a * X.d - X.b * X.c

/-- Matrix inverse by the adjugate formula, np.linalg.inv for a
nonsingular 2x2 operand (on a singular operand numpy raises; here the
rational convention x / 0 = 0 produces a junk value instead). -/
def Mat2.inv (X : Mat2) : Mat2 :=
  ⟨X.d / X.det, -X.b / X.det, -X.c / X.det, X.a / X.det⟩

/-- Maximum of a list, np.amax (0 on the empty list, where numpy
raises). -/
def npAmax : List ℚ → ℚ
  | [] => 0
  | x :: xs => xs.foldl max x

/-- Minimum of a list, np.amin (0 on the empty list, where numpy
raises). -/
def npAmin : List ℚ → ℚ
  | [] => 0
  | x :: xs => xs.foldl min x

/-- Insert a value into a sorted list, keeping it sorted. -/
def insertQ (x : ℚ) : List ℚ → List ℚ
  | [] => [x]
  | y :: ys => if x ≤ y then x :: y :: ys else y :: insertQ x ys

/-- Insertion sort of a rational list, ascending. -/
def sortQ : List ℚ → List ℚ
  | [] => []
  | x :: xs => insertQ x (sortQ xs)

/-- Median of a list, np.median: middle element of the sorted data for
odd length, average of the two middle elements for even length. -/
def npMedian (l : List ℚ) : ℚ :=
  let s := sortQ l
  let n := l.length
  if n = 0 then 0
  else if n % 2 = 1 then s.getD (n / 2) 0
  else (s.getD (n / 2 - 1) 0 + s.getD (n / 2) 0) / 2

/-- Round to the nearest integer with ties to even, np.round on a
scalar. -/
def npRound (q : ℚ) : ℤ :=
  let f := ⌊q⌋
  let r := q - (f : ℚ)
  if r < 1 / 2 then f
  else if (1 : ℚ) / 2 < r then f + 1
  else if f % 2 = 0 then f else f + 1

/-- Inner while loop of resizer from nbed_strain.py: starting from the
remaining input suffix, the global input counter m, the running data
sum and the most recently consumed sample, consume samples while
m * N - n * M < M holds, accumulating them into the sum.  Returns the
new suffix, counter, sum and last consumed sample. -/
def resizerWhile (M N n : ℕ) : List ℚ → ℕ → ℚ → ℚ → List ℚ × ℕ × ℚ × ℚ
  | [], m, s, last => ([], m, s, last)
  | dd :: rest, m, s, last =>
    if (m : ℤ) * (N : ℤ) - (n : ℤ) * (M : ℤ) < (M : ℤ) then
      resizerWhile M N n rest (m + 1) (s + dd) dd
    else (dd :: rest, m, s, last)

/-- Outer for loop of resizer: k iterations remain, n is the current
output index; the state carries the remaining input, the counter m, the
carry and the last consumed sample.  Each iteration bins the overlap
weighted content into one output cell res n = data_sum * N / M. -/
def resizerGo (M N : ℕ) : ℕ → ℕ → List ℚ → ℕ → ℚ → ℚ → List ℚ
  | 0, _, _, _, _, _ => []
  | k + 1, n, rem, m, carry, last =>
    match resizerWhile M N n rem m carry last with
    | (rem2, m2, s2, last2) =>
      let carry2 : ℚ := ((m2 : ℚ) - ((n : ℚ) + 1) * (M : ℚ) / (N : ℚ)) * last2
      ((s2 - carry2) * (N : ℚ) / (M : ℚ)) ::
        resizerGo M N k (n + 1) rem2 m2 carry2 last2

/-- resizer from nbed_strain.py: exact area resampling of a length M
list into N output bins. -/
def resizer (data : List ℚ) (N : ℕ) : List ℚ :=
  resizerGo data.length N N 0 data 0 0 0

/-- Column j of a matrix stored as a list of rows (0 outside the row). -/
def colOf (mat : List (List ℚ)) (j : ℕ) : List ℚ :=
  mat.map (fun row => row.getD j 0)

/-- resizer2D from nbed_strain.py: resample each row to the rounded
width, then each column of the result to the rounded height.  The entry
at position i j of the output is entry i of the resampled column j, as
the source writes resampled[:, xx] = resizer(resampled_x[:, xx], h2). -/
def resizer2D (data : List (List ℚ)) (sampling : ℚ × ℚ) : List (List ℚ) :=
  let h := data.length
  let w := (data.headD []).length
  let h2 := (npRound ((h : ℚ) / sampling.1)).toNat
  let w2 := (npRound ((w : ℚ) / sampling.2)).toNat
  let resampled_x := data.map (fun row => resizer row w2)
  (List.range h2).map (fun i =>
    (List.range w2).map (fun j => (resizer (colOf resampled_x j) h2).getD i 0))

/-- Mean of the entries of a 2D cell, np.mean over both axes: total sum
divided by the number of entries. -/
def cellMean (cell : List (List ℚ)) : ℚ :=
  ((cell.map List.sum).sum) / (((cell.map List.length).sum : ℕ) : ℚ)

/-- Spectral slice data4D[:, :, ii, jj] of a 4D dataset stored as
nested lists indexed x y ii jj. -/
def slice4 (data4D : List (List (List (List ℚ)))) (ii jj : ℕ) : List (List ℚ) :=
  data4D.map (fun plane => plane.map (fun cell => (cell.getD ii []).getD jj 0))

/-- bin4D from nbed_strain.py: compute the mean over the two spectral
axes, bin that mean image with resizer2D to fix the output shape, then
bin every spectral slice independently with resizer2D and store it into
the output box of that shape. -/
def bin4D (data4D : List (List (List (List ℚ)))) (bin_factor : ℚ) :
    List (List (List (List ℚ))) :=
  let cdim := ((data4D.headD []).headD []).length
  let ddim := (((data4D.headD []).headD []).headD []).length
  let mean_data := data4D.map (fun plane => plane.map cellMean)
  let mean_binned := resizer2D mean_data (bin_factor, bin_factor)
  let h2 := mean_binned.length
  let w2 := (mean_binned.headD []).length
  (List.range h2).map (fun x =>
    (List.range w2).map (fun y =>
      (List.range cdim).map (fun ii =>
        (List.range ddim).map (fun jj =>
          ((resizer2D (slice4 data4D ii jj) (bin_factor, bin_factor)).getD x []).getD y 0))))

/-- Rectangularity of a nested 4D list with dimensions a b c d. -/
def rect4 (data4D : List (List (List (List ℚ)))) (a b c d : ℕ) : Prop :=
  data4D.length = a ∧ ∀ plane ∈ data4D, plane.length = b ∧
    ∀ cell ∈ plane, cell.length = c ∧ ∀ row ∈ cell, row.length = d

/-- Diffraction pattern: 2D rational image with ky rows and kx
columns. -/
def Pattern (ky kx : ℕ) : Type := Fin ky → Fin kx → ℚ

/-- All entries of a pattern as a flat row major list. -/
def patternList {ky kx : ℕ} (p : Pattern ky kx) : List ℚ :=
  (List.ofFn fun i => List.ofFn fun j => p i j).flatten

/-- Sum of all entries of a pattern, np.sum. -/
def patternSum {ky kx : ℕ} (p : Pattern ky kx) : ℚ :=
  (patternList p).sum

/-- All zero pattern. -/
def zeroPattern {ky kx : ℕ} : Pattern ky kx := fun _ _ => 0

/-- Mean pattern of a stack, np.mean over the last axis of a
ky kx n array. -/
def meanStack {ky kx : ℕ} (data : List (Pattern ky kx)) : Pattern ky kx :=
  fun i j => ((data.map fun p => p i j).sum) / (data.length : ℚ)

/-- Outlier clamp from nbed_strain.py: entries above med_factor times
the median of the image are replaced by that median. -/
def clampPattern {ky kx : ℕ} (p : Pattern ky kx) (med_factor : ℚ) : Pattern ky kx :=
  let med := npMedian (patternList p)
  fun i j => if med_factor * med < p i j then med else p i j

/-- Row sums of a pattern, np.sum along axis 1. -/
def rowSums {ky kx : ℕ} (p : Pattern ky kx) : List ℚ :=
  List.ofFn fun i => (List.ofFn fun j => p i j).sum

/-- Gram matrix of the index rows of a zipped regression system:
the 2x2 matrix A transpose times A over the paired rows. -/
def gramZ (l : List ((ℚ × ℚ) × (ℚ × ℚ))) : Mat2 :=
  ⟨(l.map fun z => z.1.1 * z.1.1).sum, (l.map fun z => z.1.1 * z.1.2).sum,
   (l.map fun z => z.1.1 * z.1.2).sum, (l.map fun z => z.1.2 * z.1.2).sum⟩

/-- Moment matrix A transpose times B over the paired rows of a zipped
regression system. -/
def crossZ (l : List ((ℚ × ℚ) × (ℚ × ℚ))) : Mat2 :=
  ⟨(l.map fun z => z.1.1 * z.2.1).sum, (l.map fun z => z.1.1 * z.2.2).sum,
   (l.map fun z => z.1.2 * z.2.1).sum, (l.map fun z => z.1.2 * z.2.2).sum⟩

/-- Squared residual of a candidate matrix X over the paired rows of a
zipped regression system: the quantity np.linalg.lstsq minimises. -/
def lossZ (l : List ((ℚ × ℚ) × (ℚ × ℚ))) (X : Mat2) : ℚ :=
  (l.map fun z => (z.1.1 * X.a + z.1.2 * X.c - z.2.1) ^ 2 +
    (z.1.1 * X.b + z.1.2 * X.d - z.2.2) ^ 2).sum

/-- Squared residual of the two column regression system
A X is approximately B, rows paired positionally. -/
def lstsqLoss (A B : List (ℚ × ℚ)) (X : Mat2) : ℚ := lossZ (A.zip B) X

/-- np.linalg.lstsq for the two column full rank system A X is
approximately B, embedded through the normal equations: the returned
matrix is the inverse Gram matrix times the moment matrix, which is the
unique least squares solution whenever the Gram matrix is
nonsingular. -/
def lstsq (A B : List (ℚ × ℚ)) : Mat2 :=
  (gramZ (A.zip B)).inv.mul (crossZ (A.zip B))

/-- fit_nbed_disks from nbed_strain.py, parametric in the external 2D
Gaussian peak fitter fitG (gt.fit_gaussian2D_mask).  Refine each
approximate position, flip the y coordinates to the Cartesian
convention, centre on the disk whose lattice index is exactly (0, 0),
fit the lattice basis by least squares and return the refined list, the
centre with y flipped back, and the basis. -/
def fit_nbed_disks {α : Type} (fitG : α → ℚ → ℚ → ℚ → ℚ × ℚ)
    (corr_image : α) (disk_size : ℚ)
    (positions : List (ℚ × ℚ)) (diff_spots : List (ℚ × ℚ)) :
    List (ℚ × ℚ) × (ℚ × ℚ) × Mat2 :=
  let fitted_disk_list := positions.map (fun pos => fitG corr_image pos.1 pos.2 disk_size)
  let disk_locations := fitted_disk_list.map (fun p => (p.1, 0 - p.2))
  let matchRows :=
    (disk_locations.zip diff_spots).filter
      (fun z => decide (z.2.1 = 0) && decide (z.2.2 = 0))
  let center := (matchRows.headD ((0, 0), (0, 0))).1
  let cx := center.1
  let cy := center.2
  let disk_locations2 := disk_locations.map (fun p => (p.1 - cx, p.2 - cy))
  let lcbed := lstsq diff_spots disk_locations2
  (fitted_disk_list, (cx, (-1) * cy), lcbed)

/-- Modelled from the spec: the regression targets of fit_nbed_disks,
written with the unique central index k made explicit.  The refined
positions have their y coordinate negated (image to Cartesian flip) and
the position of the disk at index k, the one whose lattice index is
exactly (0, 0), subtracted. -/
def centeredLocations {α : Type} (fitG : α → ℚ → ℚ → ℚ → ℚ × ℚ) (corr_image : α)
    (disk_size : ℚ) (positions : List (ℚ × ℚ)) (k : ℕ) : List (ℚ × ℚ) :=
  let fitted := positions.map (fun pos => fitG corr_image pos.1 pos.2 disk_size)
  let locs := fitted.map (fun p => (p.1, 0 - p.2))
  let ctr := locs.getD k (0, 0)
  locs.map (fun p => (p.1 - ctr.1, p.2 - ctr.2))

/-- External collaborator functions consumed by the strain extractors:
the Sobel edge operator (returning edges and gradient direction), the
intensity logarizer, the hybrid cross correlator, the 2D Gaussian peak
fitter, and the floating point square root and pi used only to form the
disk radius passed to the fitter. -/
structure NBEDExternals (ky kx : ℕ) where
  sobelF : Pattern ky kx → Pattern ky kx × Pattern ky kx
  logF : Pattern ky kx → Pattern ky kx
  ccF : Pattern ky kx → Pattern ky kx → ℚ → Pattern ky kx
  fitG : Pattern ky kx → ℚ → ℚ → ℚ → ℚ × ℚ
  sqrtQ : ℚ → ℚ
  piQ : ℚ

/-- Disk radius estimate used by both strain extractors:
(np.sum(center_disk) / np.pi) ** 0.5. -/
def diskSizeOf {ky kx : ℕ} (E : NBEDExternals ky kx) (center_disk : Pattern ky kx) : ℚ :=
  E.sqrtQ (patternSum center_disk / E.piQ)

/-- Per pattern lattice basis of strain_in_ROI: log scale, edge detect,
clamp outliers, cross correlate against the edge detected reference
disk with hybridizer 0.1, then locate the disks. -/
def patternAxesROI {ky kx : ℕ} (E : NBEDExternals ky kx) (center_disk : Pattern ky kx)
    (disk_list pos_list : List (ℚ × ℚ)) (med_factor : ℚ) (p : Pattern ky kx) : Mat2 :=
  let disk_size := diskSizeOf E center_disk
  let sobel_center_disk := (E.sobelF center_disk).1
  let sobel_log_pattern := clampPattern ((E.sobelF (E.logF p)).1) med_factor
  let lsc_pattern := E.ccF sobel_log_pattern sobel_center_disk (1 / 10)
  (fit_nbed_disks E.fitG lsc_pattern disk_size disk_list pos_list).2.2

/-- Reference basis of strain_in_ROI: the supplied basis when one is
given, otherwise the basis fitted to the preprocessed mean pattern of
the ROI stack. -/
def refAxesROI {ky kx : ℕ} (E : NBEDExternals ky kx) (data4D_ROI : List (Pattern ky kx))
    (center_disk : Pattern ky kx) (disk_list pos_list : List (ℚ × ℚ))
    (reference_axes : Option Mat2) (med_factor : ℚ) : Mat2 :=
  match reference_axes with
  | some R => R
  | none => patternAxesROI E center_disk disk_list pos_list med_factor (meanStack data4D_ROI)

/-- strain_in_ROI from nbed_strain.py: invert the reference basis once,
then for every pattern of the ROI stack fit the local basis through the
preprocessing pipeline, form T = pattern_axes times the inverse
reference basis and S = T minus the identity, and emit the four strain
components. -/
def strain_in_ROI {ky kx : ℕ} (E : NBEDExternals ky kx)
    (data4D_ROI : List (Pattern ky kx)) (center_disk : Pattern ky kx)
    (disk_list pos_list : List (ℚ × ℚ))
    (reference_axes : Option Mat2) (med_factor : ℚ) :
    List ℚ × List ℚ × List ℚ × List ℚ :=
  let inverse_axes :=
    (refAxesROI E data4D_ROI center_disk disk_list pos_list reference_axes med_factor).inv
  let comps := data4D_ROI.map (fun pattern =>
    let pattern_axes := patternAxesROI E center_disk disk_list pos_list med_factor pattern
    let t_pattern := pattern_axes.mul inverse_axes
    let s_pattern := t_pattern.sub Mat2.one
    (-s_pattern.a, -(s_pattern.b + s_pattern.c), s_pattern.b - s_pattern.c, -s_pattern.d))
  (comps.map (fun q => q.1), comps.map (fun q => q.2.1),
   comps.map (fun q => q.2.2.1), comps.map (fun q => q.2.2.2))

/-- Per pattern lattice basis of strain_oldstyle: cross correlate the
raw pattern against the raw reference disk with hybridizer 0.1, then
locate the disks. -/
def patternAxesOld {ky kx : ℕ} (E : NBEDExternals ky kx) (center_disk : Pattern ky kx)
    (disk_list pos_list : List (ℚ × ℚ)) (p : Pattern ky kx) : Mat2 :=
  let disk_size := diskSizeOf E center_disk
  let cc_pattern := E.ccF p center_disk (1 / 10)
  (fit_nbed_disks E.fitG cc_pattern disk_size disk_list pos_list).2.2

/-- Reference basis of strain_oldstyle: the supplied basis when one is
given, otherwise the basis fitted to the raw mean pattern. -/
def refAxesOld {ky kx : ℕ} (E : NBEDExternals ky kx) (data4D_ROI : List (Pattern ky kx))
    (center_disk : Pattern ky kx) (disk_list pos_list : List (ℚ × ℚ))
    (reference_axes : Option Mat2) : Mat2 :=
  match reference_axes with
  | some R => R
  | none => patternAxesOld E center_disk disk_list pos_list (meanStack data4D_ROI)

/-- strain_oldstyle from nbed_strain.py: the direct cross correlation
pipeline, with the same basis comparison and strain formulas as
strain_in_ROI. -/
def strain_oldstyle {ky kx : ℕ} (E : NBEDExternals ky kx)
    (data4D_ROI : List (Pattern ky kx)) (center_disk : Pattern ky kx)
    (disk_list pos_list : List (ℚ × ℚ))
    (reference_axes : Option Mat2) :
    List ℚ × List ℚ × List ℚ × List ℚ :=
  let inverse_axes :=
    (refAxesOld E data4D_ROI center_disk disk_list pos_list reference_axes).inv
  let comps := data4D_ROI.map (fun pattern =>
    let pattern_axes := patternAxesOld E center_disk disk_list pos_list pattern
    let t_pattern := pattern_axes.mul inverse_axes
    let s_pattern := t_pattern.sub Mat2.one
    (-s_pattern.a, -(s_pattern.b + s_pattern.c), s_pattern.b - s_pattern.c, -s_pattern.d))
  (comps.map (fun q => q.1), comps.map (fun q => q.2.1),
   comps.map (fun q => q.2.2.1), comps.map (fun q => q.2.2.2))

/-- Modelled from the spec: strain_in_ROI with the log intensity
scaling, the edge detection on the pattern and on the reference centre
disk, and the med_factor outlier clamp all replaced by the identity;
the med_factor argument is retained but no longer reaches any
computation.  Everything else repeats strain_in_ROI verbatim. -/
def strain_in_ROI_skipPre {ky kx : ℕ} (E : NBEDExternals ky kx)
    (data4D_ROI : List (Pattern ky kx)) (center_disk : Pattern ky kx)
    (disk_list pos_list : List (ℚ × ℚ))
    (reference_axes : Option Mat2) (med_factor : ℚ) :
    List ℚ × List ℚ × List ℚ × List ℚ :=
  let axesOf := fun (p : Pattern ky kx) =>
    let disk_size := diskSizeOf E center_disk
    let lsc_pattern := E.ccF p center_disk (1 / 10)
    (fit_nbed_disks E.fitG lsc_pattern disk_size disk_list pos_list).2.2
  let reference :=
    match reference_axes with
    | some R => R
    | none => axesOf (meanStack data4D_ROI)
  let inverse_axes := reference.inv
  let comps := data4D_ROI.map (fun pattern =>
    let pattern_axes := axesOf pattern
    let t_pattern := pattern_axes.mul inverse_axes
    let s_pattern := t_pattern.sub Mat2.one
    (-s_pattern.a, -(s_pattern.b + s_pattern.c), s_pattern.b - s_pattern.c, -s_pattern.d))
  (comps.map (fun q => q.1), comps.map (fun q => q.2.1),
   comps.map (fun q => q.2.2.1), comps.map (fun q => q.2.2.2))

/-- angle_fun from nbed_strain.py, parametric in the external rotation
scnd.rotate with order 5 and no reshape: rotate the image by the trial
angle, negate the row sums and return their minimum. -/
def angle_fun {ky kx : ℕ} (rotateF : Pattern ky kx → ℚ → Pattern ky kx)
    (angle : ℚ) (image_orig : Pattern ky kx) : ℚ :=
  let rotated_image := rotateF image_orig angle
  let rotsum := (rowSums rotated_image).map (fun s => (-1) * s)
  npAmin rotsum

/-- rotation_finder from nbed_strain.py, parametric in the external
rotation and the external scalar minimizer sio.minimize: minimise the
angle_fun objective starting from 90. -/
def rotation_finder {ky kx : ℕ} (rotateF : Pattern ky kx → ℚ → Pattern ky kx)
    (minimizeF : (ℚ → ℚ) → ℚ → ℚ) (image_orig : Pattern ky kx) : ℚ :=
  minimizeF (fun angle => angle_fun rotateF angle image_orig) 90

/-- Concrete externals instance used to exercise the strain pipeline on
a one pixel pattern: the edge detector and logarizer act as identities,
the correlator returns its first argument and the peak fitter returns
the queried position. -/
def exampleExternals : NBEDExternals 1 1 :=
  ⟨fun p => (p, p), id, fun a _ _ => a, fun _ x y _ => (x, y), id, 3⟩

/-- Concrete one pixel pattern of intensity one. -/
def onePattern : Pattern 1 1 := fun _ _ => 1

/-- Concrete disk position list used by the example configuration. -/
def exampleDisks : List (ℚ × ℚ) := [(10, 10), (12, 10), (10, 13)]

/-- Concrete lattice index list used by the example configuration. -/
def exampleSpots : List (ℚ × ℚ) := [(0, 0), (1, 0), (0, 1)]

/-- Number of true entries of a boolean row. -/
def countTrueRow (row : List Bool) : ℕ := row.countP (fun b => b)

/-- Number of true entries of a boolean mask. -/
def countTrue (mask : List (List Bool)) : ℕ := (mask.map countTrueRow).sum

/-- Scatter values into one mask row: true positions receive the next
value, false positions receive zero; returns the built row and the
values not yet consumed. -/
def scatterRow : List Bool → List ℚ → List ℚ × List ℚ
  | [], vs => ([], vs)
  | b :: bs, vs =>
    if b then
      let r := scatterRow bs vs.tail
      (vs.headD 0 :: r.1, r.2)
    else
      let r := scatterRow bs vs
      ((0 : ℚ) :: r.1, r.2)

/-- Scatter values through the rows of a mask in row major order. -/
def scatterRows : List (List Bool) → List ℚ → List (List ℚ)
  | [], _ => []
  | row :: rest, vs =>
    let r := scatterRow row vs
    r.1 :: scatterRows rest r.2

/-- ROI_strain_map from nbed_strain.py: allocate a zero map shaped like
the mask and assign the ROI values into the true positions in row major
order, numpy boolean mask assignment. -/
def ROI_strain_map (strain_ROI : List ℚ) (ROI : List (List Bool)) : List (List ℚ) :=
  scatterRows ROI strain_ROI

/-- Values of a map at the true positions of one mask row, in order. -/
def extractRow : List Bool → List ℚ → List ℚ
  | b :: bs, x :: xs => if b then x :: extractRow bs xs else extractRow bs xs
  | _, _ => []

/-- Values of a map at the true positions of a mask in row major order,
numpy boolean mask read. -/
def maskExtract : List (List Bool) → List (List ℚ) → List ℚ
  | [], _ => []
  | row :: rest, m => extractRow row (m.headD []) ++ maskExtract rest m.tail

/-- cleanEELS_wavelet from eels_tools.py, parametric in the pywt
collaborators: wavedecF data level is pywt.wavedec with the sym4
wavelet, dwtMaxLevelF is pywt.dwt_max_level, sym4DecLen is the
decomposition length of the sym4 wavelet, pywtThresholdF is
pywt.threshold and waverecF is pywt.waverec.  The threshold parameter
is overwritten with 0.1 before any use, exactly as in the source. -/
def cleanEELS_wavelet (wavedecF : List ℚ → ℕ → List (List ℚ))
    (dwtMaxLevelF : ℕ → ℕ → ℕ) (sym4DecLen : ℕ)
    (pywtThresholdF : List ℚ → ℚ → List ℚ)
    (waverecF : List (List ℚ) → List ℚ)
    (data : List ℚ) (threshold : ℚ) : List ℚ :=
  let max_level := dwtMaxLevelF data.length sym4DecLen
  let coeffs := wavedecF data max_level
  let coeffs2 := coeffs
  let threshold := (1 : ℚ) / 10
  let coeffs3 := coeffs2.mapIdx
    (fun ii c => if ii = 0 then c else pywtThresholdF c (threshold * npAmax c))
  waverecF coeffs3

/-- Invariants of the resizer while loop: the running sum absorbs
exactly the consumed samples, the counter advances once per consumed
sample, and on exit either the input is exhausted or the loop condition
fails. -/
lemma resizerWhile_spec (M N n : ℕ) :
    ∀ (rem : List ℚ) (m : ℕ) (s last : ℚ),
      (resizerWhile M N n rem m s last).2.2.1 + (resizerWhile M N n rem m s last).1.sum
          = s + rem.sum ∧
      (resizerWhile M N n rem m s last).2.1 + (resizerWhile M N n rem m s last).1.length
          = m + rem.length ∧
      ((resizerWhile M N n rem m s last).1 = [] ∨
        ¬(((resizerWhile M N n rem m s last).2.1 : ℤ) * (N : ℤ) - (n : ℤ) * (M : ℤ)
            < (M : ℤ))) := by
  intro rem
  induction rem with
  | nil =>
    intro m s last
    simp [resizerWhile]
  | cons dd rest ih =>
    intro m s last
    by_cases h : ((m : ℤ) * (N : ℤ) - (n : ℤ) * (M : ℤ) < (M : ℤ))
    · obtain ⟨h1, h2, h3⟩ := ih (m + 1) (s + dd) dd
      simp only [resizerWhile, if_pos h]
      refine ⟨?_, ?_, h3⟩
      · rw [h1, List.sum_cons]; ring
      · rw [h2, List.length_cons]; omega
    · simp [resizerWhile, h]

/-- Telescoping sum of the resizer outer loop: with at least one
iteration left, output index n = N - k, and the counter consistent with
the remaining input, the produced cells sum to N / M times the carry
plus the remaining input. -/
lemma resizerGo_sum (M N : ℕ) :
    ∀ (k n : ℕ) (rem : List ℚ) (m : ℕ) (carry last : ℚ),
      1 ≤ k → n + k = N → m + rem.length = M →
      (resizerGo M N k n rem m carry last).sum
        = (N : ℚ) / (M : ℚ) * (carry + rem.sum) := by
  intro k
  induction k with
  | zero =>
    intro n rem m carry last h1
    exact absurd h1 (by omega)
  | succ k ih =>
    intro n rem m carry last _ hnk hm
    obtain ⟨hsum, hcnt, hexit⟩ := resizerWhile_spec M N n rem m carry last
    rcases hw : resizerWhile M N n rem m carry last with ⟨rem2, m2, s2, last2⟩
    rw [hw] at hsum hcnt hexit
    simp only at hsum hcnt hexit
    rcases Nat.eq_zero_or_pos k with hk0 | hk1
    · subst hk0
      have hN1 : 1 ≤ N := by omega
      have hrem2 : rem2 = [] := by
        rcases hexit with he | he
        · exact he
        · push_neg at he
          have hNn : (N : ℤ) = (n : ℤ) + 1 := by
            have hx : n + 1 = N := by omega
            exact_mod_cast hx.symm
          have h2 : (M : ℤ) * ((n : ℤ) + 1) ≤ (m2 : ℤ) * ((n : ℤ) + 1) := by
            have h3 : (M : ℤ) * ((n : ℤ) + 1) = (n : ℤ) * (M : ℤ) + (M : ℤ) := by ring
            rw [h3, ← hNn]
            linarith
          have hpos : (0 : ℤ) < (n : ℤ) + 1 := by positivity
          have hmM : (M : ℤ) ≤ (m2 : ℤ) := (mul_le_mul_right hpos).mp h2
          have hmM2 : M ≤ m2 := by exact_mod_cast hmM
          have hlen : rem2.length = 0 := by omega
          exact List.length_eq_zero.mp hlen
      subst hrem2
      simp only [List.sum_nil, add_zero, List.length_nil] at hsum hcnt
      have hm2 : m2 = M := by omega
      have hNQ : (N : ℚ) ≠ 0 := Nat.cast_ne_zero.mpr (by omega)
      have hn1 : ((n : ℚ) + 1) = (N : ℚ) := by
        have hx : n + 1 = N := by omega
        exact_mod_cast hx
      simp only [resizerGo, hw]
      have hcarry2 : ((m2 : ℚ) - ((n : ℚ) + 1) * (M : ℚ) / (N : ℚ)) * last2 = 0 := by
        rw [hm2, hn1, mul_comm ((N : ℚ)) ((M : ℚ)), mul_div_assoc, div_self hNQ,
          mul_one, sub_self, zero_mul]
      rw [hcarry2]
      simp only [List.sum_cons, List.sum_nil, sub_zero, add_zero]
      rw [hsum]
      ring
    · have hm2 : m2 + rem2.length = M := by omega
      have htail := ih (n + 1) rem2 m2
        (((m2 : ℚ) - ((n : ℚ) + 1) * (M : ℚ) / (N : ℚ)) * last2) last2
        hk1 (by omega) hm2
      simp only [resizerGo, hw, List.sum_cons]
      rw [htail, ← hsum]
      ring

/-- Identity run of the resizer: with output length equal to the
remaining input length plus the index already produced, each iteration
consumes exactly one sample, leaves no carry and reproduces the
sample. -/
lemma resizerGo_id (M : ℕ) :
    ∀ (rem : List ℚ) (n : ℕ) (last : ℚ), n + rem.length = M →
      resizerGo M M rem.length n rem n 0 last = rem := by
  intro rem
  induction rem with
  | nil =>
    intro n last _
    simp [resizerGo]
  | cons dd rest ih =>
    intro n last h
    have hM1 : 1 ≤ M := by simp at h; omega
    have c1 : ((n : ℤ) * (M : ℤ) - (n : ℤ) * (M : ℤ) < (M : ℤ)) := by
      rw [sub_self]; exact_mod_cast hM1
    have c2 : ¬((((n + 1 : ℕ)) : ℤ) * (M : ℤ) - (n : ℤ) * (M : ℤ) < (M : ℤ)) := by
      push_cast
      intro hcon
      ring_nf at hcon
      exact lt_irrefl _ hcon
    have hw : resizerWhile M M n (dd :: rest) n 0 last = (rest, n + 1, 0 + dd, dd) := by
      cases rest with
      | nil =>
        simp only [resizerWhile]
        rw [if_pos c1]
      | cons e r2 =>
        simp only [resizerWhile]
        rw [if_pos c1, if_neg c2]
    have hMQ : (M : ℚ) ≠ 0 := Nat.cast_ne_zero.mpr (by omega)
    have hcarry : (((n + 1 : ℕ) : ℚ) - ((n : ℚ) + 1) * (M : ℚ) / (M : ℚ)) * dd = 0 := by
      rw [mul_div_assoc, div_self hMQ, mul_one]
      push_cast
      ring_nf
    simp only [List.length_cons, resizerGo, hw]
    rw [hcarry]
    have helem : (0 + dd - 0) * (M : ℚ) / (M : ℚ) = dd := by
      rw [zero_add, sub_zero, mul_div_assoc, div_self hMQ, mul_one]
    rw [helem]
    have htail := ih (n + 1) dd (by simp only [List.length_cons] at h; omega)
    rw [htail]

/-- Resampling a list to its own length reproduces the list. -/
lemma resizer_self (data : List ℚ) : resizer data data.length = data := by
  simp only [resizer]
  exact resizerGo_id data.length data 0 0 (by omega)

/-- Mapping two pointwise equal functions over a list gives equal
results. -/
lemma map_congr_mem {α β : Type} (f g : α → β) :
    ∀ (l : List α), (∀ x ∈ l, f x = g x) → l.map f = l.map g := by
  intro l
  induction l with
  | nil => intro _; rfl
  | cons x xs ih =>
    intro h
    simp only [List.map_cons]
    rw [h x (by simp), ih (fun y hy => h y (by simp [hy]))]

/-- getD through a map, inside the range. -/
lemma getD_map {α β : Type} (f : α → β) (da : α) (db : β) :
    ∀ (l : List α) (i : ℕ), i < l.length → (l.map f).getD i db = f (l.getD i da) := by
  intro l
  induction l with
  | nil => intro i hi; simp at hi
  | cons x xs ih =>
    intro i hi
    cases i with
    | zero => simp
    | succ i => simpa using ih i (by simpa using hi)

/-- getD inside the range produces a member of the list. -/
lemma getD_mem {α : Type} (da : α) :
    ∀ (l : List α) (i : ℕ), i < l.length → l.getD i da ∈ l := by
  intro l
  induction l with
  | nil => intro i hi; simp at hi
  | cons x xs ih =>
    intro i hi
    cases i with
    | zero => simp
    | succ i => simpa using Or.inr (ih i (by simpa using hi))

/-- Reading a list at indices 0 up to its length reproduces the
list. -/
lemma range_map_getD {α : Type} (da : α) :
    ∀ (l : List α), (List.range l.length).map (fun i => l.getD i da) = l := by
  intro l
  induction l with
  | nil => simp
  | cons x xs ih =>
    rw [List.length_cons, List.range_succ_eq_map, List.map_cons, List.map_map]
    simp only [List.getD_cons_zero]
    congr 1

/-- Mapping two functions over a range, equal below the bound, gives
equal results. -/
lemma range_map_congr {α : Type} (f g : ℕ → α) :
    ∀ (n : ℕ), (∀ i, i < n → f i = g i) → (List.range n).map f = (List.range n).map g := by
  intro n
  induction n with
  | zero => intro _; rfl
  | succ n ih =>
    intro h
    rw [List.range_succ, List.map_append, List.map_append,
      ih (fun i hi => h i (by omega))]
    simp [h n (by omega)]

/-- npRound of a natural number divided by one is that number. -/
lemma npRound_natCast_div_one (n : ℕ) : (npRound ((n : ℚ) / 1)).toNat = n := by
  have hf : ⌊((n : ℚ))⌋ = (n : ℤ) := Int.floor_natCast n
  simp [npRound, hf]

/-- resizer2D with unit sampling factors is the identity on
rectangular matrices. -/
lemma resizer2D_one (data : List (List ℚ))
    (hrect : ∀ row ∈ data, row.length = (data.headD []).length) :
    resizer2D data (1, 1) = data := by
  simp only [resizer2D]
  rw [npRound_natCast_div_one, npRound_natCast_div_one]
  have hx : data.map (fun row => resizer row (data.headD []).length) = data := by
    have h1 : data.map (fun row => resizer row (data.headD []).length) = data.map id := by
      apply map_congr_mem
      intro row hrow
      rw [← hrect row hrow]
      exact resizer_self row
    rw [h1, List.map_id]
  rw [hx]
  have hcol : ∀ j, resizer (colOf data j) data.length = colOf data j := by
    intro j
    have hc : data.length = (colOf data j).length := by simp [colOf]
    rw [hc]
    exact resizer_self _
  calc (List.range data.length).map (fun i => (List.range (data.headD []).length).map
          (fun j => (resizer (colOf data j) data.length).getD i 0))
      = (List.range data.length).map (fun i => data.getD i []) := by
        apply range_map_congr
        intro i hi
        have hrow : (data.getD i []) ∈ data := getD_mem [] data i hi
        have hlen : (data.getD i []).length = (data.headD []).length := hrect _ hrow
        calc (List.range (data.headD []).length).map
              (fun j => (resizer (colOf data j) data.length).getD i 0)
            = (List.range (data.headD []).length).map
              (fun j => (data.getD i []).getD j 0) := by
              apply range_map_congr
              intro j hj
              rw [hcol j]
              simp only [colOf]
              exact getD_map _ [] 0 data i hi
          _ = data.getD i [] := by rw [← hlen]; exact range_map_getD 0 _
    _ = data := range_map_getD [] data

/-- C3: resizer redistributes intensity exactly: for every input of
length at least one and every positive target length N, the output sums
to the input sum times N over the input length. -/
theorem resizer_sum_scaling (data : List ℚ) (N : ℕ)
    (hM : 1 ≤ data.length) (hN : 1 ≤ N) :
    (resizer data N).sum = data.sum * (N : ℚ) / (data.length : ℚ) := by
  have h := resizerGo_sum data.length N N 0 data 0 0 0 hN (by omega) (by omega)
  simp only [resizer]
  rw [h]
  ring

/-- Witness for resizer_sum_scaling at the concrete input [1, 2] with
target length 3. -/
theorem resizer_sum_scaling_witness :
    1 ≤ ([1, 2] : List ℚ).length ∧ 1 ≤ 3 ∧
      (resizer [1, 2] 3).sum
        = ([1, 2] : List ℚ).sum * (3 : ℚ) / (([1, 2] : List ℚ).length : ℚ) :=
  ⟨by decide, by decide, resizer_sum_scaling [1, 2] 3 (by decide) (by decide)⟩

/-- C9: resampling a list to its own length is the identity. -/
theorem resizer_same_length_identity (data : List ℚ) :
    resizer data data.length = data :=
  resizer_self data

/-- headD of a nonempty list is a member. -/
lemma headD_mem {α : Type} (da : α) (l : List α) (hl : l ≠ []) : l.headD da ∈ l := by
  cases l with
  | nil => exact absurd rfl hl
  | cons x xs => simp

/-- C7: bin4D with bin factor one reproduces a rectangular 4D dataset
exactly. -/
theorem bin4D_factor_one (data4D : List (List (List (List ℚ)))) (a b c d : ℕ)
    (hrect : rect4 data4D a b c d) :
    bin4D data4D 1 = data4D := by
  obtain ⟨ha, hpl⟩ := hrect
  cases data4D with
  | nil =>
    simp only [bin4D, List.map_nil]
    rw [resizer2D_one [] (by simp)]
    rfl
  | cons p0 rest =>
    have hb0 : p0.length = b := (hpl p0 (by simp)).1
    have hslice : ∀ ii jj,
        resizer2D (slice4 (p0 :: rest) ii jj) (1, 1) = slice4 (p0 :: rest) ii jj := by
      intro ii jj
      apply resizer2D_one
      intro row hrow
      simp only [slice4, List.map_cons, List.headD_cons, List.length_map] at hrow ⊢
      rw [hb0]
      cases hrow with
      | head => rw [List.length_map, hb0]
      | tail _ hrow =>
        obtain ⟨plane, hp, hrow2⟩ := List.mem_map.mp hrow
        rw [← hrow2, List.length_map, (hpl plane (by simp [hp])).1]
    have hmean : resizer2D (List.map (fun plane => List.map cellMean plane) (p0 :: rest)) (1, 1)
        = List.map (fun plane => List.map cellMean plane) (p0 :: rest) := by
      apply resizer2D_one
      intro row hrow
      simp only [List.map_cons, List.headD_cons, List.length_map] at hrow ⊢
      rw [hb0]
      cases hrow with
      | head => rw [List.length_map, hb0]
      | tail _ hrow =>
        obtain ⟨plane, hp, hrow2⟩ := List.mem_map.mp hrow
        rw [← hrow2, List.length_map, (hpl plane (by simp [hp])).1]
    simp only [bin4D]
    rw [hmean]
    simp only [hslice, List.length_map, List.map_cons, List.headD_cons]
    rw [hb0]
    rw [show (List.map cellMean p0 ::
      List.map (fun plane => List.map cellMean plane) rest).length
      = (p0 :: rest).length from by simp]
    conv_rhs => rw [← range_map_getD ([] : List (List (List ℚ))) (p0 :: rest)]
    apply range_map_congr
    intro x hx
    have hplane : (p0 :: rest).getD x [] ∈ (p0 :: rest) := getD_mem [] _ x hx
    have hpb : ((p0 :: rest).getD x []).length = b := (hpl _ hplane).1
    rw [← hpb]
    conv_rhs => rw [← range_map_getD ([] : List (List ℚ)) ((p0 :: rest).getD x [])]
    apply range_map_congr
    intro y hy
    have hb1 : 1 ≤ b := by omega
    have hcell : ((p0 :: rest).getD x []).getD y [] ∈ (p0 :: rest).getD x [] :=
      getD_mem [] _ y (by omega)
    have hcc : (((p0 :: rest).getD x []).getD y []).length = c :=
      ((hpl _ hplane).2 _ hcell).1
    have hp0ne : p0 ≠ [] := by
      intro h0
      rw [h0] at hb0
      simp at hb0
      omega
    have hcdim : (p0.headD []).length = c :=
      ((hpl p0 (by simp)).2 (p0.headD []) (headD_mem [] p0 hp0ne)).1
    rw [hcdim, ← hcc]
    conv_rhs => rw [← range_map_getD ([] : List ℚ) (((p0 :: rest).getD x []).getD y [])]
    apply range_map_congr
    intro ii hii
    have hc1 : 1 ≤ c := by omega
    have hrowm : (((p0 :: rest).getD x []).getD y []).getD ii []
        ∈ ((p0 :: rest).getD x []).getD y [] := getD_mem [] _ ii (by omega)
    have hrd : ((((p0 :: rest).getD x []).getD y []).getD ii []).length = d :=
      ((hpl _ hplane).2 _ hcell).2 _ hrowm
    have hc0ne : p0.headD [] ≠ [] := by
      intro h0
      rw [h0] at hcdim
      simp at hcdim
      omega
    have hddim : ((p0.headD []).headD []).length = d :=
      ((hpl p0 (by simp)).2 (p0.headD []) (headD_mem [] p0 hp0ne)).2
        ((p0.headD []).headD []) (headD_mem [] _ hc0ne)
    rw [hddim, ← hrd]
    conv_rhs => rw [← range_map_getD (0 : ℚ)
      ((((p0 :: rest).getD x []).getD y []).getD ii [])]
    apply range_map_congr
    intro jj hjj
    simp only [slice4]
    rw [getD_map _ ([] : List (List (List ℚ))) ([] : List ℚ) _ x hx]
    rw [getD_map _ ([] : List (List ℚ)) (0 : ℚ) _ y (by omega)]

/-- Witness for bin4D_factor_one at a concrete one by one by two by two
dataset. -/
theorem bin4D_factor_one_witness :
    rect4 [[[[1, 2], [3, 4]]]] 1 1 2 2 ∧
      bin4D [[[[(1 : ℚ), 2], [3, 4]]]] 1 = [[[[1, 2], [3, 4]]]] :=
  ⟨by unfold rect4; decide, bin4D_factor_one [[[[1, 2], [3, 4]]]] 1 1 2 2 (by unfold rect4; decide)⟩

/-- scatterRow leaves exactly the values beyond the true count of its
row unconsumed. -/
lemma scatterRow_snd : ∀ (bs : List Bool) (vs : List ℚ),
    (scatterRow bs vs).2 = vs.drop (countTrueRow bs) := by
  intro bs
  induction bs with
  | nil => intro vs; simp [scatterRow, countTrueRow]
  | cons b bs ih =>
    intro vs
    cases b with
    | true =>
      simp only [scatterRow, countTrueRow, List.countP_cons, if_true]
      rw [ih vs.tail]
      cases vs <;> simp [countTrueRow]
    | false =>
      simp only [scatterRow, countTrueRow, List.countP_cons]
      rw [ih vs]
      simp [countTrueRow]

/-- Extracting along the mask row from the scattered row recovers the
consumed prefix of the values. -/
lemma scatterRow_extract : ∀ (bs : List Bool) (vs : List ℚ),
    countTrueRow bs ≤ vs.length →
    extractRow bs (scatterRow bs vs).1 = vs.take (countTrueRow bs) := by
  intro bs
  induction bs with
  | nil => intro vs _; simp [scatterRow, countTrueRow, extractRow]
  | cons b bs ih =>
    intro vs h
    cases b with
    | true =>
      cases vs with
      | nil =>
        simp [countTrueRow, List.countP_cons] at h
      | cons v vs2 =>
        simp only [scatterRow, if_true, List.headD_cons, List.tail_cons, extractRow,
          countTrueRow, List.countP_cons]
        simp only [countTrueRow] at ih
        rw [ih vs2 (by simp [countTrueRow, List.countP_cons] at h; omega)]
        simp
    | false =>
      simp only [scatterRow, extractRow, countTrueRow, List.countP_cons]
      simp only [countTrueRow] at ih
      rw [ih vs (by simp [countTrueRow, List.countP_cons] at h; omega)]
      simp

/-- Scattered rows hold zero at every false mask position. -/
lemma scatterRow_zero : ∀ (bs : List Bool) (vs : List ℚ) (j : ℕ),
    bs.getD j false = false → ((scatterRow bs vs).1).getD j 0 = 0 := by
  intro bs
  induction bs with
  | nil => intro vs j _; simp [scatterRow]
  | cons b bs ih =>
    intro vs j hj
    cases b with
    | true =>
      cases j with
      | zero => simp at hj
      | succ j =>
        simp only [scatterRow, if_true, List.getD_cons_succ] at hj ⊢
        exact ih vs.tail j (by simpa using hj)
    | false =>
      cases j with
      | zero => simp [scatterRow]
      | succ j =>
        simp only [scatterRow, List.getD_cons_succ] at hj ⊢
        exact ih vs j (by simpa using hj)

/-- Reading the scattered map back along the mask recovers the
values. -/
lemma scatterRows_extract : ∀ (mask : List (List Bool)) (vs : List ℚ),
    vs.length = countTrue mask →
    maskExtract mask (scatterRows mask vs) = vs := by
  intro mask
  induction mask with
  | nil =>
    intro vs h
    simp [countTrue] at h
    simp [maskExtract, h]
  | cons row rest ih =>
    intro vs h
    have hcount : countTrue (row :: rest) = countTrueRow row + countTrue rest := by
      simp [countTrue]
    simp only [scatterRows, maskExtract, List.headD_cons, List.tail_cons]
    have hb : countTrueRow row ≤ vs.length := by rw [h, hcount]; omega
    rw [scatterRow_extract row vs hb, scatterRow_snd row vs]
    rw [ih (vs.drop (countTrueRow row)) (by rw [List.length_drop, h, hcount]; omega)]
    exact List.take_append_drop _ vs

/-- The scattered map is zero at every false mask position. -/
lemma scatterRows_zero : ∀ (mask : List (List Bool)) (vs : List ℚ) (i j : ℕ),
    (mask.getD i []).getD j false = false →
    ((scatterRows mask vs).getD i []).getD j 0 = 0 := by
  intro mask
  induction mask with
  | nil => intro vs i j _; simp [scatterRows]
  | cons row rest ih =>
    intro vs i j h
    cases i with
    | zero =>
      simp only [scatterRows, List.getD_cons_zero] at h ⊢
      exact scatterRow_zero row vs j h
    | succ i =>
      simp only [scatterRows, List.getD_cons_succ] at h ⊢
      exact ih _ i j h

/-- C8: ROI_strain_map scatters the ROI values into a map of the mask
shape that is zero outside the mask, and reading the map back at the
true mask positions in the same row major order recovers the values
exactly. -/
theorem ROI_strain_map_roundtrip (strain_ROI : List ℚ) (ROI : List (List Bool))
    (h : strain_ROI.length = countTrue ROI) :
    maskExtract ROI (ROI_strain_map strain_ROI ROI) = strain_ROI ∧
    ∀ i j, (ROI.getD i []).getD j false = false →
      ((ROI_strain_map strain_ROI ROI).getD i []).getD j 0 = 0 := by
  constructor
  · exact scatterRows_extract ROI strain_ROI h
  · intro i j hij
    exact scatterRows_zero ROI strain_ROI i j hij

/-- Witness for ROI_strain_map_roundtrip at a concrete two by two mask
with two ROI values. -/
theorem ROI_strain_map_roundtrip_witness :
    ([5, 7] : List ℚ).length = countTrue [[true, false], [false, true]] ∧
    maskExtract [[true, false], [false, true]]
      (ROI_strain_map [5, 7] [[true, false], [false, true]]) = [5, 7] ∧
    ((ROI_strain_map [5, 7] [[true, false], [false, true]]).getD 0 []).getD 1 0 = 0 := by
  have h2 := ROI_strain_map_roundtrip [5, 7] [[true, false], [false, true]]
    (by unfold countTrue countTrueRow; decide)
  exact ⟨by unfold countTrue countTrueRow; decide, h2.1, h2.2 0 1 (by decide)⟩

/-- C10: the output of cleanEELS_wavelet does not depend on the
threshold argument, because the function overwrites the parameter with
the fixed value 0.1 before any use. -/
theorem cleanEELS_wavelet_threshold_independent
    (wavedecF : List ℚ → ℕ → List (List ℚ)) (dwtMaxLevelF : ℕ → ℕ → ℕ)
    (sym4DecLen : ℕ) (pywtThresholdF : List ℚ → ℚ → List ℚ)
    (waverecF : List (List ℚ) → List ℚ) (data : List ℚ) (t1 t2 : ℚ) :
    cleanEELS_wavelet wavedecF dwtMaxLevelF sym4DecLen pywtThresholdF waverecF data t1
      = cleanEELS_wavelet wavedecF dwtMaxLevelF sym4DecLen pywtThresholdF waverecF data t2 :=
  rfl

/-- Product of a matrix with its inverse is the identity when the
determinant does not vanish. -/
lemma Mat2.mul_inv_self (X : Mat2) (h : X.det ≠ 0) : X.mul X.inv = Mat2.one := by
  have h2 : X.a * X.d - X.b * X.c ≠ 0 := h
  simp only [Mat2.mul, Mat2.inv, Mat2.one, Mat2.det, Mat2.mk.injEq]
  refine ⟨?_, ?_, ?_, ?_⟩ <;> field_simp <;> ring

/-- Associativity of the 2x2 matrix product. -/
lemma Mat2.mul_assoc (X Y Z : Mat2) : (X.mul Y).mul Z = X.mul (Y.mul Z) := by
  simp only [Mat2.mul, Mat2.mk.injEq]
  refine ⟨?_, ?_, ?_, ?_⟩ <;> ring

/-- The identity matrix is a left unit for the product. -/
lemma Mat2.one_mul (X : Mat2) : Mat2.one.mul X = X := by
  cases X
  simp only [Mat2.mul, Mat2.one, Mat2.mk.injEq]
  refine ⟨?_, ?_, ?_, ?_⟩ <;> ring

/-- Quadratic expansion of the regression loss around a reference
candidate: the loss at X is the loss at Xh plus a cross term linear in
X minus Xh plus a nonnegative square term. -/
lemma lossZ_decomp (l : List ((ℚ × ℚ) × (ℚ × ℚ))) (X Xh : Mat2) :
    lossZ l X = lossZ l Xh
      + 2 * ((X.a - Xh.a) * (l.map fun z => z.1.1 * (z.1.1 * Xh.a + z.1.2 * Xh.c - z.2.1)).sum
           + (X.c - Xh.c) * (l.map fun z => z.1.2 * (z.1.1 * Xh.a + z.1.2 * Xh.c - z.2.1)).sum
           + (X.b - Xh.b) * (l.map fun z => z.1.1 * (z.1.1 * Xh.b + z.1.2 * Xh.d - z.2.2)).sum
           + (X.d - Xh.d) * (l.map fun z => z.1.2 * (z.1.1 * Xh.b + z.1.2 * Xh.d - z.2.2)).sum)
      + (l.map fun z => (z.1.1 * (X.a - Xh.a) + z.1.2 * (X.c - Xh.c)) ^ 2
           + (z.1.1 * (X.b - Xh.b) + z.1.2 * (X.d - Xh.d)) ^ 2).sum := by
  induction l with
  | nil => simp [lossZ]
  | cons z l ih =>
    simp only [lossZ, List.map_cons, List.sum_cons] at ih ⊢
    linear_combination ih

/-- The first residual moment in terms of the Gram and moment
matrices. -/
lemma residual_moment_aa (l : List ((ℚ × ℚ) × (ℚ × ℚ))) (Xh : Mat2) :
    (l.map fun z => z.1.1 * (z.1.1 * Xh.a + z.1.2 * Xh.c - z.2.1)).sum
      = (gramZ l).a * Xh.a + (gramZ l).b * Xh.c - (crossZ l).a := by
  induction l with
  | nil => simp [gramZ, crossZ]
  | cons z l ih =>
    simp only [gramZ, crossZ, List.map_cons, List.sum_cons] at ih ⊢
    linear_combination ih

/-- The second residual moment in terms of the Gram and moment
matrices. -/
lemma residual_moment_ca (l : List ((ℚ × ℚ) × (ℚ × ℚ))) (Xh : Mat2) :
    (l.map fun z => z.1.2 * (z.1.1 * Xh.a + z.1.2 * Xh.c - z.2.1)).sum
      = (gramZ l).c * Xh.a + (gramZ l).d * Xh.c - (crossZ l).c := by
  induction l with
  | nil => simp [gramZ, crossZ]
  | cons z l ih =>
    simp only [gramZ, crossZ, List.map_cons, List.sum_cons] at ih ⊢
    linear_combination ih

/-- The third residual moment in terms of the Gram and moment
matrices. -/
lemma residual_moment_ab (l : List ((ℚ × ℚ) × (ℚ × ℚ))) (Xh : Mat2) :
    (l.map fun z => z.1.1 * (z.1.1 * Xh.b + z.1.2 * Xh.d - z.2.2)).sum
      = (gramZ l).a * Xh.b + (gramZ l).b * Xh.d - (crossZ l).b := by
  induction l with
  | nil => simp [gramZ, crossZ]
  | cons z l ih =>
    simp only [gramZ, crossZ, List.map_cons, List.sum_cons] at ih ⊢
    linear_combination ih

/-- The fourth residual moment in terms of the Gram and moment
matrices. -/
lemma residual_moment_cb (l : List ((ℚ × ℚ) × (ℚ × ℚ))) (Xh : Mat2) :
    (l.map fun z => z.1.2 * (z.1.1 * Xh.b + z.1.2 * Xh.d - z.2.2)).sum
      = (gramZ l).c * Xh.b + (gramZ l).d * Xh.d - (crossZ l).d := by
  induction l with
  | nil => simp [gramZ, crossZ]
  | cons z l ih =>
    simp only [gramZ, crossZ, List.map_cons, List.sum_cons] at ih ⊢
    linear_combination ih

/-- Nonnegativity of the quadratic remainder of the loss expansion. -/
lemma sq_term_nonneg (l : List ((ℚ × ℚ) × (ℚ × ℚ))) (X Xh : Mat2) :
    0 ≤ (l.map fun z => (z.1.1 * (X.a - Xh.a) + z.1.2 * (X.c - Xh.c)) ^ 2
           + (z.1.1 * (X.b - Xh.b) + z.1.2 * (X.d - Xh.d)) ^ 2).sum := by
  induction l with
  | nil => simp
  | cons z l ih =>
    simp only [List.map_cons, List.sum_cons]
    have hz : (0 : ℚ) ≤ (z.1.1 * (X.a - Xh.a) + z.1.2 * (X.c - Xh.c)) ^ 2
        + (z.1.1 * (X.b - Xh.b) + z.1.2 * (X.d - Xh.d)) ^ 2 := by positivity
    linarith

/-- Any candidate satisfying the normal equations minimises the
regression loss. -/
lemma normal_opt (l : List ((ℚ × ℚ) × (ℚ × ℚ))) (Xh X : Mat2)
    (hn : (gramZ l).mul Xh = crossZ l) :
    lossZ l Xh ≤ lossZ l X := by
  have hd := lossZ_decomp l X Xh
  have ha := congrArg Mat2.a hn
  have hb := congrArg Mat2.b hn
  have hc := congrArg Mat2.c hn
  have hdd := congrArg Mat2.d hn
  simp only [Mat2.mul] at ha hb hc hdd
  have e1 : (l.map fun z => z.1.1 * (z.1.1 * Xh.a + z.1.2 * Xh.c - z.2.1)).sum = 0 := by
    rw [residual_moment_aa]
    linarith
  have e2 : (l.map fun z => z.1.2 * (z.1.1 * Xh.a + z.1.2 * Xh.c - z.2.1)).sum = 0 := by
    rw [residual_moment_ca]
    linarith
  have e3 : (l.map fun z => z.1.1 * (z.1.1 * Xh.b + z.1.2 * Xh.d - z.2.2)).sum = 0 := by
    rw [residual_moment_ab]
    linarith
  have e4 : (l.map fun z => z.1.2 * (z.1.1 * Xh.b + z.1.2 * Xh.d - z.2.2)).sum = 0 := by
    rw [residual_moment_cb]
    linarith
  rw [e1, e2, e3, e4] at hd
  have hsq := sq_term_nonneg l X Xh
  linarith

/-- The normal equation solution returned by the embedded lstsq
minimises the squared residual whenever the Gram matrix is
nonsingular. -/
lemma lstsq_minimises (A B : List (ℚ × ℚ)) (h : (gramZ (A.zip B)).det ≠ 0) (X : Mat2) :
    lstsqLoss A B (lstsq A B) ≤ lstsqLoss A B X := by
  simp only [lstsqLoss, lstsq]
  apply normal_opt
  rw [← Mat2.mul_assoc, Mat2.mul_inv_self _ h, Mat2.one_mul]

/-- If exactly one index of the second list carries the value (0, 0),
then the first row of the boolean mask selection over the zipped pair
is the entry of the first list at that index. -/
lemma filter_zip_head : ∀ (k : ℕ) (L S : List (ℚ × ℚ)),
    L.length = S.length → k < S.length →
    S.getD k (1, 1) = (0, 0) →
    (∀ j, j < S.length → S.getD j (1, 1) = (0, 0) → j = k) →
    ((L.zip S).filter (fun z => decide (z.2.1 = 0) && decide (z.2.2 = 0))).headD
        ((0, 0), (0, 0))
      = (L.getD k (0, 0), (0, 0)) := by
  intro k
  induction k with
  | zero =>
    intro L S hlen hk hval _
    cases S with
    | nil => simp at hk
    | cons s S2 =>
      cases L with
      | nil => simp at hlen
      | cons a L2 =>
        simp only [List.getD_cons_zero] at hval
        simp [List.zip_cons_cons, List.filter_cons, hval]
  | succ k ih =>
    intro L S hlen hk hval huniq
    cases S with
    | nil => simp at hk
    | cons s S2 =>
      cases L with
      | nil => simp at hlen
      | cons a L2 =>
        have hs : s ≠ ((0 : ℚ), (0 : ℚ)) := by
          intro h0
          have := huniq 0 (by simp) (by simpa using h0)
          omega
        have hpred : (decide (s.1 = (0 : ℚ)) && decide (s.2 = (0 : ℚ))) = false := by
          by_contra hcon
          rw [Bool.not_eq_false, Bool.and_eq_true, decide_eq_true_iff,
            decide_eq_true_iff] at hcon
          exact hs (Prod.ext hcon.1 hcon.2)
        simp only [List.zip_cons_cons, List.filter_cons, hpred]
        simp only [List.getD_cons_succ] at hval ⊢
        exact ih L2 S2 (by simpa using hlen) (by simpa using hk) hval
          (fun j hj hv => by
            have := huniq (j + 1) (by simpa using hj) (by simpa using hv)
            omega)

/-- C2: under the precondition that exactly one lattice index is
(0, 0) and that the index rows have a nonsingular Gram matrix,
fit_nbed_disks returns the refined positions produced by the external
peak fitter at each approximate position with search radius disk_size,
the central disk pixel equal to the refined position of the (0, 0)
indexed disk with its y coordinate restored to image convention, and
the least squares solution of the two column regression of the centred
Cartesian disk locations on the lattice indices: the returned basis
matrix minimises the squared residual over all 2x2 matrices. -/
theorem fit_nbed_disks_spec {α : Type} (fitG : α → ℚ → ℚ → ℚ → ℚ × ℚ)
    (corr_image : α) (disk_size : ℚ) (positions diff_spots : List (ℚ × ℚ)) (k : ℕ)
    (hlen : positions.length = diff_spots.length) (hk : k < diff_spots.length)
    (hval : diff_spots.getD k (1, 1) = (0, 0))
    (huniq : ∀ j, j < diff_spots.length → diff_spots.getD j (1, 1) = (0, 0) → j = k)
    (hdet : (gramZ (diff_spots.zip
      (centeredLocations fitG corr_image disk_size positions k))).det ≠ 0) :
    (fit_nbed_disks fitG corr_image disk_size positions diff_spots).1
        = positions.map (fun pos => fitG corr_image pos.1 pos.2 disk_size) ∧
    (fit_nbed_disks fitG corr_image disk_size positions diff_spots).2.1
        = (positions.map (fun pos => fitG corr_image pos.1 pos.2 disk_size)).getD k (0, 0) ∧
    (fit_nbed_disks fitG corr_image disk_size positions diff_spots).2.2
        = lstsq diff_spots (centeredLocations fitG corr_image disk_size positions k) ∧
    ∀ X : Mat2,
      lstsqLoss diff_spots (centeredLocations fitG corr_image disk_size positions k)
          (fit_nbed_disks fitG corr_image disk_size positions diff_spots).2.2
        ≤ lstsqLoss diff_spots (centeredLocations fitG corr_image disk_size positions k) X := by
  have hflen : (positions.map (fun pos => fitG corr_image pos.1 pos.2 disk_size)).length
      = diff_spots.length := by rw [List.length_map]; exact hlen
  have hllen : ((positions.map (fun pos => fitG corr_image pos.1 pos.2 disk_size)).map
      (fun p => (p.1, 0 - p.2))).length = diff_spots.length := by
    rw [List.length_map]; exact hflen
  have hhead := filter_zip_head k
    ((positions.map (fun pos => fitG corr_image pos.1 pos.2 disk_size)).map
      (fun p => (p.1, 0 - p.2)))
    diff_spots hllen hk hval huniq
  simp only [fit_nbed_disks]
  rw [hhead]
  have hctr : ((positions.map (fun pos => fitG corr_image pos.1 pos.2 disk_size)).map
        (fun p => (p.1, 0 - p.2))).getD k (0, 0)
      = (((positions.map (fun pos => fitG corr_image pos.1 pos.2 disk_size)).getD k (0, 0)).1,
         0 - ((positions.map (fun pos => fitG corr_image pos.1 pos.2 disk_size)).getD k (0, 0)).2) := by
    rw [getD_map _ ((0 : ℚ), (0 : ℚ)) ((0 : ℚ), (0 : ℚ)) _ k (by omega)]
  refine ⟨by trivial, ?_, ?_, ?_⟩
  · rw [hctr]
    simp
  · rw [centeredLocations, hctr]
  · intro X
    have hmin := lstsq_minimises diff_spots
      (centeredLocations fitG corr_image disk_size positions k) hdet X
    have heq : (((positions.map (fun pos => fitG corr_image pos.1 pos.2 disk_size)).map
          (fun p => (p.1, 0 - p.2))).map
          (fun p => (p.1 - (((positions.map (fun pos => fitG corr_image pos.1 pos.2 disk_size)).getD k (0, 0)).1, 0 - ((positions.map (fun pos => fitG corr_image pos.1 pos.2 disk_size)).getD k (0, 0)).2).1,
                     p.2 - (((positions.map (fun pos => fitG corr_image pos.1 pos.2 disk_size)).getD k (0, 0)).1, 0 - ((positions.map (fun pos => fitG corr_image pos.1 pos.2 disk_size)).getD k (0, 0)).2).2)))
        = centeredLocations fitG corr_image disk_size positions k := by
      rw [centeredLocations, hctr]
    rw [hctr, heq]
    exact hmin

/-- Witness for fit_nbed_disks_spec at a concrete three disk
configuration with the identity peak fitter. -/
theorem fit_nbed_disks_spec_witness :
    (0 < ([((0 : ℚ), (0 : ℚ)), (1, 0), (0, 1)] : List (ℚ × ℚ)).length) ∧
    (gramZ (([((0 : ℚ), (0 : ℚ)), (1, 0), (0, 1)] : List (ℚ × ℚ)).zip
        (centeredLocations (fun (_ : Unit) x y _ => (x, y)) () 5
          [((10 : ℚ), (10 : ℚ)), (12, 10), (10, 13)] 0))).det ≠ 0 ∧
    (fit_nbed_disks (fun (_ : Unit) x y _ => (x, y)) () 5
        [((10 : ℚ), (10 : ℚ)), (12, 10), (10, 13)]
        [((0 : ℚ), (0 : ℚ)), (1, 0), (0, 1)]).2.1 = (10, 10) ∧
    lstsqLoss [((0 : ℚ), (0 : ℚ)), (1, 0), (0, 1)]
        (centeredLocations (fun (_ : Unit) x y _ => (x, y)) () 5
          [((10 : ℚ), (10 : ℚ)), (12, 10), (10, 13)] 0)
        (fit_nbed_disks (fun (_ : Unit) x y _ => (x, y)) () 5
          [((10 : ℚ), (10 : ℚ)), (12, 10), (10, 13)]
          [((0 : ℚ), (0 : ℚ)), (1, 0), (0, 1)]).2.2
      ≤ lstsqLoss [((0 : ℚ), (0 : ℚ)), (1, 0), (0, 1)]
        (centeredLocations (fun (_ : Unit) x y _ => (x, y)) () 5
          [((10 : ℚ), (10 : ℚ)), (12, 10), (10, 13)] 0)
        Mat2.one := by
  have h := fit_nbed_disks_spec (fun (_ : Unit) x y _ => (x, y)) () 5
    [((10 : ℚ), (10 : ℚ)), (12, 10), (10, 13)] [((0 : ℚ), (0 : ℚ)), (1, 0), (0, 1)] 0
    (by decide) (by decide) (by decide) (by decide)
    (by simp [gramZ, centeredLocations, Mat2.det, List.zip_cons_cons])
  refine ⟨by decide, by simp [gramZ, centeredLocations, Mat2.det, List.zip_cons_cons],
    ?_, h.2.2.2 Mat2.one⟩
  rw [h.2.1]
  rfl

/-- C1: in both strain_in_ROI and strain_oldstyle, at every pattern
index of the ROI stack, with pattern_axes the lattice basis fitted for
that pattern and reference_axes the nonsingular reference basis, the
emitted components are e_xx = -S[0,0], e_xy = -(S[0,1] + S[1,0]),
e_theta = S[0,1] - S[1,0] and e_yy = -S[1,1] for S the deformation
tensor pattern_axes times the inverse reference basis minus the
identity. -/
theorem strain_components_match_formulas {ky kx : ℕ} (E : NBEDExternals ky kx)
    (data4D_ROI : List (Pattern ky kx)) (center_disk : Pattern ky kx)
    (disk_list pos_list : List (ℚ × ℚ)) (reference_axes : Option Mat2) (med_factor : ℚ)
    (ii : ℕ) (hii : ii < data4D_ROI.length)
    (hdetROI : (refAxesROI E data4D_ROI center_disk disk_list pos_list reference_axes
      med_factor).det ≠ 0)
    (hdetOld : (refAxesOld E data4D_ROI center_disk disk_list pos_list
      reference_axes).det ≠ 0) :
    (let S := ((patternAxesROI E center_disk disk_list pos_list med_factor
        (data4D_ROI.getD ii zeroPattern)).mul
      (refAxesROI E data4D_ROI center_disk disk_list pos_list reference_axes
        med_factor).inv).sub Mat2.one
     (strain_in_ROI E data4D_ROI center_disk disk_list pos_list reference_axes
        med_factor).1.getD ii 0 = -S.a ∧
     (strain_in_ROI E data4D_ROI center_disk disk_list pos_list reference_axes
        med_factor).2.1.getD ii 0 = -(S.b + S.c) ∧
     (strain_in_ROI E data4D_ROI center_disk disk_list pos_list reference_axes
        med_factor).2.2.1.getD ii 0 = S.b - S.c ∧
     (strain_in_ROI E data4D_ROI center_disk disk_list pos_list reference_axes
        med_factor).2.2.2.getD ii 0 = -S.d) ∧
    (let S2 := ((patternAxesOld E center_disk disk_list pos_list
        (data4D_ROI.getD ii zeroPattern)).mul
      (refAxesOld E data4D_ROI center_disk disk_list pos_list reference_axes).inv).sub
        Mat2.one
     (strain_oldstyle E data4D_ROI center_disk disk_list pos_list
        reference_axes).1.getD ii 0 = -S2.a ∧
     (strain_oldstyle E data4D_ROI center_disk disk_list pos_list
        reference_axes).2.1.getD ii 0 = -(S2.b + S2.c) ∧
     (strain_oldstyle E data4D_ROI center_disk disk_list pos_list
        reference_axes).2.2.1.getD ii 0 = S2.b - S2.c ∧
     (strain_oldstyle E data4D_ROI center_disk disk_list pos_list
        reference_axes).2.2.2.getD ii 0 = -S2.d) := by
  constructor
  · simp only [strain_in_ROI, List.map_map]
    refine ⟨?_, ?_, ?_, ?_⟩ <;> exact getD_map _ zeroPattern 0 _ ii hii
  · simp only [strain_oldstyle, List.map_map]
    refine ⟨?_, ?_, ?_, ?_⟩ <;> exact getD_map _ zeroPattern 0 _ ii hii

/-- Witness for strain_components_match_formulas at the concrete one
pixel configuration with the identity reference basis, checking the
e_xx component of both pipelines. -/
theorem strain_components_match_formulas_witness :
    (0 < ([onePattern] : List (Pattern 1 1)).length) ∧
    (refAxesROI exampleExternals [onePattern] onePattern exampleDisks exampleSpots
      (some Mat2.one) 10).det ≠ 0 ∧
    (refAxesOld exampleExternals [onePattern] onePattern exampleDisks exampleSpots
      (some Mat2.one)).det ≠ 0 ∧
    (strain_in_ROI exampleExternals [onePattern] onePattern exampleDisks exampleSpots
        (some Mat2.one) 10).1.getD 0 0
      = -(((patternAxesROI exampleExternals onePattern exampleDisks exampleSpots 10
          (([onePattern] : List (Pattern 1 1)).getD 0 zeroPattern)).mul
        (refAxesROI exampleExternals [onePattern] onePattern exampleDisks exampleSpots
          (some Mat2.one) 10).inv).sub Mat2.one).a ∧
    (strain_oldstyle exampleExternals [onePattern] onePattern exampleDisks exampleSpots
        (some Mat2.one)).1.getD 0 0
      = -(((patternAxesOld exampleExternals onePattern exampleDisks exampleSpots
          (([onePattern] : List (Pattern 1 1)).getD 0 zeroPattern)).mul
        (refAxesOld exampleExternals [onePattern] onePattern exampleDisks exampleSpots
          (some Mat2.one)).inv).sub Mat2.one).a := by
  have hd1 : (refAxesROI exampleExternals [onePattern] onePattern exampleDisks exampleSpots
      (some Mat2.one) 10).det ≠ 0 := by
    norm_num [refAxesROI, Mat2.det, Mat2.one]
  have hd2 : (refAxesOld exampleExternals [onePattern] onePattern exampleDisks exampleSpots
      (some Mat2.one)).det ≠ 0 := by
    norm_num [refAxesOld, Mat2.det, Mat2.one]
  have h := strain_components_match_formulas exampleExternals [onePattern] onePattern
    exampleDisks exampleSpots (some Mat2.one) 10 0 (by decide) hd1 hd2
  exact ⟨by decide, hd1, hd2, h.1.1, h.2.1⟩

/-- Mean of a stack of identical patterns is that pattern. -/
lemma meanStack_replicate {ky kx : ℕ} (n : ℕ) (P : Pattern ky kx) (hn : 1 ≤ n) :
    meanStack (List.replicate n P) = P := by
  funext i j
  simp only [meanStack, List.map_replicate, List.sum_replicate, nsmul_eq_mul,
    List.length_replicate]
  have hnQ : (n : ℚ) ≠ 0 := Nat.cast_ne_zero.mpr (by omega)
  rw [mul_comm, mul_div_assoc, div_self hnQ, mul_one]

/-- C4: on a stack of identical patterns, with no reference basis
supplied (so the reference is fitted to the mean, which equals every
pattern) and the fitted basis nonsingular, strain_in_ROI emits a zero
strain tensor: all four component arrays are zero everywhere. -/
theorem strain_in_ROI_zero_on_constant_stack {ky kx : ℕ} (E : NBEDExternals ky kx)
    (n : ℕ) (P center_disk : Pattern ky kx) (disk_list pos_list : List (ℚ × ℚ))
    (med_factor : ℚ) (hn : 1 ≤ n)
    (hdet : (patternAxesROI E center_disk disk_list pos_list med_factor P).det ≠ 0) :
    strain_in_ROI E (List.replicate n P) center_disk disk_list pos_list none med_factor
      = (List.replicate n 0, List.replicate n 0, List.replicate n 0, List.replicate n 0) := by
  have hmean := meanStack_replicate n P hn
  simp only [strain_in_ROI, refAxesROI, hmean, List.map_replicate]
  rw [Mat2.mul_inv_self _ hdet]
  simp [Mat2.sub, Mat2.one, List.map_replicate]

/-- Witness for strain_in_ROI_zero_on_constant_stack at the concrete
one pixel configuration. -/
theorem strain_in_ROI_zero_on_constant_stack_witness :
    1 ≤ 1 ∧
    (patternAxesROI exampleExternals onePattern exampleDisks exampleSpots 10
      onePattern).det ≠ 0 ∧
    strain_in_ROI exampleExternals (List.replicate 1 onePattern) onePattern exampleDisks
        exampleSpots none 10
      = (List.replicate 1 0, List.replicate 1 0, List.replicate 1 0, List.replicate 1 0) := by
  have hv : patternAxesROI exampleExternals onePattern exampleDisks exampleSpots 10
      onePattern = ⟨2, 0, 0, -3⟩ := by
    simp [exampleExternals, onePattern, exampleDisks, exampleSpots, patternAxesROI,
      fit_nbed_disks, lstsq, gramZ, crossZ, Mat2.inv, Mat2.mul, Mat2.det, clampPattern,
      npMedian, patternList, diskSizeOf, patternSum, sortQ, insertQ, List.zip_cons_cons]
    norm_num
  have hdet : (patternAxesROI exampleExternals onePattern exampleDisks exampleSpots 10
      onePattern).det ≠ 0 := by
    rw [hv]
    norm_num [Mat2.det]
  exact ⟨le_refl 1, hdet,
    strain_in_ROI_zero_on_constant_stack exampleExternals 1 onePattern onePattern
      exampleDisks exampleSpots 10 (le_refl 1) hdet⟩

/-- C5: strain_oldstyle computes exactly the per pixel pipeline of
strain_in_ROI with the log scaling, the edge detection on both the
pattern and the reference disk, and the outlier clamp replaced by the
identity: the skip preprocessing variant of strain_in_ROI agrees with
strain_oldstyle on every input, for every value of the now unused
med_factor. -/
theorem strain_oldstyle_is_strain_in_ROI_without_preprocessing {ky kx : ℕ}
    (E : NBEDExternals ky kx) (data4D_ROI : List (Pattern ky kx))
    (center_disk : Pattern ky kx) (disk_list pos_list : List (ℚ × ℚ))
    (reference_axes : Option Mat2) (med_factor : ℚ) :
    strain_in_ROI_skipPre E data4D_ROI center_disk disk_list pos_list reference_axes
        med_factor
      = strain_oldstyle E data4D_ROI center_disk disk_list pos_list reference_axes := by
  rfl

/-- Folding min over negated values computes the negated max fold. -/
lemma foldl_min_neg : ∀ (xs : List ℚ) (x : ℚ),
    (xs.map fun s => (-1) * s).foldl min ((-1) * x) = (-1) * xs.foldl max x := by
  intro xs
  induction xs with
  | nil => intro x; simp
  | cons y ys ih =>
    intro x
    simp only [List.map_cons, List.foldl_cons]
    rw [show min ((-1) * x) ((-1) * y) = (-1) * max x y from by
      rcases le_total x y with h | h
      · rw [max_eq_right h, min_eq_right (by nlinarith)]
      · rw [max_eq_left h, min_eq_left (by nlinarith)]]
    exact ih (max x y)

/-- The minimum of the negated entries of a nonempty list is the
negated maximum. -/
lemma npAmin_map_neg (l : List ℚ) (hl : l ≠ []) :
    npAmin (l.map fun s => (-1) * s) = -(npAmax l) := by
  cases l with
  | nil => exact absurd rfl hl
  | cons x xs =>
    simp only [List.map_cons, npAmin, npAmax]
    rw [foldl_min_neg xs x]
    ring

/-- Counterexample for C6 as stated: with the rotation instantiated as
the identity (the behaviour of scnd.rotate at angle zero), the scalar
objective of angle_fun on a concrete two by two image is the negated
largest row sum, minus two, and differs from the negated total
intensity, minus three. -/
theorem angle_fun_not_neg_total_sum :
    ¬ (angle_fun (fun (p : Pattern 2 2) _ => p) 0
        (fun i j => if i = 0 then 1 else if j = 0 then 1 else 0)
      = -(patternSum ((fun (p : Pattern 2 2) _ => p)
          (fun i j => if i = 0 then 1 else if j = 0 then 1 else 0) 0))) := by
  have h1 : angle_fun (fun (p : Pattern 2 2) _ => p) 0
      (fun i j => if i = 0 then 1 else if j = 0 then 1 else 0) = -2 := by
    simp [angle_fun, rowSums, npAmin, List.ofFn_succ, Fin.ext_iff]
    norm_num
  have h2 : patternSum ((fun (p : Pattern 2 2) _ => p)
      (fun i j => if i = 0 then 1 else if j = 0 then 1 else 0) 0) = 3 := by
    simp [patternSum, patternList, List.ofFn_succ, Fin.ext_iff]
    norm_num
  rw [h1, h2]
  norm_num

/-- C6 amended: rotation_finder hands the external scalar minimizer the
angle_fun objective with initial guess 90, and for every image with at
least one row that objective at a trial angle equals the negative of
the maximum over rows of the row summed intensity of the rotated image,
not the negative of the total summed intensity. -/
theorem rotation_finder_objective_amended {ky kx : ℕ}
    (rotateF : Pattern ky kx → ℚ → Pattern ky kx)
    (minimizeF : (ℚ → ℚ) → ℚ → ℚ) (image_orig : Pattern ky kx) (angle : ℚ)
    (hky : 1 ≤ ky) :
    rotation_finder rotateF minimizeF image_orig
        = minimizeF (fun a => angle_fun rotateF a image_orig) 90 ∧
    angle_fun rotateF angle image_orig
        = -(npAmax (rowSums (rotateF image_orig angle))) := by
  constructor
  · rfl
  · have hne : rowSums (rotateF image_orig angle) ≠ [] := by
      have hlen : (rowSums (rotateF image_orig angle)).length = ky := by
        simp [rowSums]
      intro h0
      rw [h0] at hlen
      simp at hlen
      omega
    simpa only [angle_fun] using npAmin_map_neg (rowSums (rotateF image_orig angle)) hne

/-- Witness for rotation_finder_objective_amended at the one pixel
image with the identity rotation and a minimizer returning its starting
point. -/
theorem rotation_finder_objective_amended_witness :
    (1 ≤ 1) ∧
    rotation_finder (fun (p : Pattern 1 1) _ => p) (fun _ x0 => x0) onePattern
      = (fun (_ : ℚ → ℚ) x0 => x0) (fun a => angle_fun (fun (p : Pattern 1 1) _ => p)
          a onePattern) 90 ∧
    angle_fun (fun (p : Pattern 1 1) _ => p) 5 onePattern
      = -(npAmax (rowSums ((fun (p : Pattern 1 1) _ => p) onePattern 5))) := by
  have h := rotation_finder_objective_amended (fun (p : Pattern 1 1) _ => p)
    (fun _ x0 => x0) onePattern 5 (by decide)
  exact ⟨by decide, h.1, h.2⟩

end Stemtool
